import Mathlib

/-!
Verification development for the squads-go client: a shallow embedding of its
transaction-message codec, account-metadata resolver, message compiler and
proposal lifecycle checks, with theorems settling the specification claims.

Addresses (`solana.PublicKey`) are abstracted as natural numbers where their
byte content is irrelevant (resolver, compiler, lifecycle checks) and as
32-byte lists where the byte-level codec is embedded.  Machine integers are
modelled as `Nat`/`Int` with explicit `% 2^w` at the points where Go performs
a narrowing conversion.
-/

namespace SquadsGo

/-! ## Execute-path writable-flag reconstruction (pkg/transaction/execute.go)

`ExecuteProposal` re-derives each dynamic account's writable flag from the
stored partition counts.  The Go loop body is

  if i < int(vaultTx.Message.NumWritableSigners) { isWritable = true }
  else if (i - int(vaultTx.Message.NumSigners)) < int(vaultTx.Message.NumWritableNonSigners) {
    isWritable = true }

with `i` a signed `int`, so the subtraction in the second branch is signed. -/

/-- Writable flag computed by `ExecuteProposal` for the account at position
`i`, given the stored partition counts (execute.go lines 141-152). -/
def execWritableFlag (numSigners numWritableSigners numWritableNonSigners : Nat)
    (i : Nat) : Bool :=
  if (i : Int) < (numWritableSigners : Int) then true
  else if (i : Int) - (numSigners : Int) < (numWritableNonSigners : Int) then true
  else false

/-- Writable flag dictated by the partition invariant of the spec (section 3):
writable iff `i < numWritableSigners`, or
`numSigners ≤ i < numSigners + numWritableNonSigners`. -/
def partitionWritableFlag (numSigners numWritableSigners numWritableNonSigners : Nat)
    (i : Nat) : Bool :=
  decide (i < numWritableSigners ∨
    (numSigners ≤ i ∧ i < numSigners + numWritableNonSigners))

/-- Dynamic account metas appended by `ExecuteProposal`: every stored account
key in order, with the writable flag recomputed from the partition counts and
the signer flag always false (execute.go lines 141-152). -/
def executeDynamicMetas (numSigners numWritableSigners numWritableNonSigners : Nat)
    (accountKeys : List Nat) : List (Nat × Bool × Bool) :=
  accountKeys.mapIdx (fun i k =>
    (k, execWritableFlag numSigners numWritableSigners numWritableNonSigners i, false))

/-! ## Execute preconditions (pkg/transaction/execute.go lines 72-102) -/

/-- Proposal status tagged union (generated Borsh variants), with the
timestamp carried by the variants that have one. -/
inductive PropStatus
  | draft (ts : Int)
  | active (ts : Int)
  | rejected (ts : Int)
  | approved (ts : Int)
  | executing
  | executed (ts : Int)
  | cancelled (ts : Int)
deriving DecidableEq

/-- Member of a multisig: address and permission bitmask (`uint8`). -/
structure Member where
  key : Nat
  mask : Nat
deriving DecidableEq

/-- Errors that `ExecuteProposal` can return from its three local
precondition checks. -/
inductive ExecError
  | notApproved
  | timelockNotElapsed
  | noExecutePermission
deriving DecidableEq

/-- Permission scan of `ExecuteProposal` (lines 89-98): walk the member list
and flag success at the first entry whose key matches the executor and whose
mask has bit 4 set; an entry with a matching key but no execute bit does not
stop the scan. -/
def hasExecutePermission (members : List Member) (executor : Nat) : Bool :=
  members.any (fun m => m.key == executor && m.mask &&& 4 != 0)

/-- Local precondition checks of `ExecuteProposal`, in source order: status
must be `Approved`; then the timelock check
`time.Now().Before(timelockEnd) && multisigAccount.TimeLock > 0` rejects;
then the executor needs the execute bit.  `now` and the approval timestamp
are Unix seconds. -/
def executeCheck (status : PropStatus) (timeLock : Nat) (now : Int)
    (members : List Member) (executor : Nat) : Except ExecError Unit :=
  match status with
  | .approved ts =>
    if now < ts + (timeLock : Int) ∧ timeLock > 0 then
      .error .timelockNotElapsed
    else if hasExecutePermission members executor then
      .ok ()
    else
      .error .noExecutePermission
  | _ => .error .notApproved

/-- Spec-side execute-permission predicate: some member entry for the
executor has the execute bit (value 4) set. -/
def HasExecBit (members : List Member) (executor : Nat) : Prop :=
  ∃ m ∈ members, m.key = executor ∧ m.mask &&& 4 ≠ 0

instance (members : List Member) (executor : Nat) :
    Decidable (HasExecBit members executor) := by
  unfold HasExecBit; infer_instance

theorem hasExecutePermission_iff (members : List Member) (executor : Nat) :
    hasExecutePermission members executor = true ↔ HasExecBit members executor := by
  unfold hasExecutePermission HasExecBit
  rw [List.any_eq_true]
  constructor
  · rintro ⟨m, hm, hp⟩
    rw [Bool.and_eq_true, beq_iff_eq, bne_iff_ne] at hp
    exact ⟨m, hm, hp.1, hp.2⟩
  · rintro ⟨m, hm, h1, h2⟩
    exact ⟨m, hm, by rw [Bool.and_eq_true, beq_iff_eq, bne_iff_ne]; exact ⟨h1, h2⟩⟩

/-! ## Little-endian encoding helpers (cmd/multisig-transaction/create.go) -/

/-- `uint64ToLEBytes` (create.go lines 550-561): eight bytes, each
`byte(value >> 8k)`. -/
def uint64ToLEBytes (v : Nat) : List Nat :=
  [v % 256, (v >>> 8) % 256, (v >>> 16) % 256, (v >>> 24) % 256,
   (v >>> 32) % 256, (v >>> 40) % 256, (v >>> 48) % 256, (v >>> 56) % 256]

/-- Little-endian base-256 digit expansion of `v` on `n` bytes
(reference definition for the round-trip statement). -/
def natToLEBytes : Nat → Nat → List Nat
  | 0, _ => []
  | n + 1, v => v % 256 :: natToLEBytes n (v / 256)

/-- Recompose a little-endian byte list into the number it denotes. -/
def leBytesToNat : List Nat → Nat
  | [] => 0
  | b :: bs => b + 256 * leBytesToNat bs

/-- Instruction payload built by `createTransactionMessageBytes` (and by the
transfer instruction in `runCreateTransaction`): the fixed transfer opcode
prefix `[2,0,0,0]` followed by the lamport amount in little-endian. -/
def transferInstructionData (lamports : Nat) : List Nat :=
  [2, 0, 0, 0] ++ uint64ToLEBytes lamports

theorem uint64ToLEBytes_eq_digits (v : Nat) :
    uint64ToLEBytes v = natToLEBytes 8 v := by
  simp only [uint64ToLEBytes, natToLEBytes, Nat.shiftRight_eq_div_pow]
  norm_num [Nat.div_div_eq_div_mul]

theorem leBytesToNat_natToLEBytes (n v : Nat) (h : v < 256 ^ n) :
    leBytesToNat (natToLEBytes n v) = v := by
  induction n generalizing v with
  | zero => simpa [natToLEBytes, leBytesToNat] using (Nat.lt_one_iff.mp h).symm
  | succ n ih =>
    simp only [natToLEBytes, leBytesToNat]
    rw [ih (v / 256) (by
      rw [Nat.div_lt_iff_lt_mul (by norm_num)]
      calc v < 256 ^ (n + 1) := h
        _ = 256 ^ n * 256 := by ring)]
    omega

/-! ## Binary codec (generated/squads_multisig_program encoding of
`TransactionMessage`)

Bytes are modelled as natural numbers; every value the encoder emits is
reduced `% 256` exactly where Go performs a byte conversion (`uint8(len(..))`
casts, byte writes of `uint8` fields).  Public keys are 32-byte lists.
The decoder is a total function on byte lists returning `Option`, so a
truncated read is an error value, never an out-of-bounds access. -/

/-- Compiled instruction record: `ProgramIdIndex uint8`,
`AccountIndexes SmallVec[u8,u8]`, `Data SmallVec[u16,u8]`. -/
structure CompiledInstr where
  programIdIndex : Nat
  accountIndexes : List Nat
  data : List Nat
deriving DecidableEq

/-- Address-table lookup record: 32-byte table key plus writable and
readonly index lists, each `SmallVec[u8,u8]`. -/
structure AddrTableLookup where
  accountKey : List Nat
  writableIndexes : List Nat
  readonlyIndexes : List Nat
deriving DecidableEq

/-- `TransactionMessage`: three `uint8` partition counts, account-key list,
compiled instructions and address-table lookups. -/
structure TxMessage where
  numSigners : Nat
  numWritableSigners : Nat
  numWritableNonSigners : Nat
  accountKeys : List (List Nat)
  instructions : List CompiledInstr
  addressTableLookups : List AddrTableLookup
deriving DecidableEq

/-- One byte written by `binary.Write`/a `uint8()` cast. -/
def encU8 (v : Nat) : List Nat := [v % 256]

/-- Two little-endian bytes written for a `uint16` value (low byte first). -/
def encU16 (v : Nat) : List Nat := [v % 256, (v / 256) % 256]

/-- `CompiledInstruction.EncodeWith`: program index byte, `uint8` count of
account indexes followed by them raw, `uint16` payload length followed by
the payload raw. -/
def encodeCI (ci : CompiledInstr) : List Nat :=
  encU8 ci.programIdIndex ++ encU8 ci.accountIndexes.length ++ ci.accountIndexes
    ++ encU16 ci.data.length ++ ci.data

/-- Wire-format bytes of an address-table lookup: 32-byte key, then each
index list with a `uint8` length prefix.  This is the layout
`MessageAddressTableLookup.DecodeWith` consumes; the Go encode direction
never actually produces it, because `EncodeWith` fails on the key (see
`encodeLookupGo`). -/
def encodeLookup (l : AddrTableLookup) : List Nat :=
  l.accountKey ++ encU8 l.writableIndexes.length ++ l.writableIndexes
    ++ encU8 l.readonlyIndexes.length ++ l.readonlyIndexes

/-- Wire format of a `TransactionMessage`: the three count bytes, then the
three `SmallVec` fields, each with a `uint8` length prefix.  This is the
layout `TransactionMessage.EncodeWith` writes in the cases where it
succeeds and `TransactionMessage.DecodeWith` consumes in general; the Go
encoder itself errors out on any non-empty lookup list (see
`encodeTMGo`). -/
def encodeTM (m : TxMessage) : List Nat :=
  encU8 m.numSigners ++ encU8 m.numWritableSigners ++ encU8 m.numWritableNonSigners
    ++ encU8 m.accountKeys.length ++ m.accountKeys.flatten
    ++ encU8 m.instructions.length ++ (m.instructions.map encodeCI).flatten
    ++ encU8 m.addressTableLookups.length ++ (m.addressTableLookups.map encodeLookup).flatten

/-- `MessageAddressTableLookup.EncodeWith` as the Go program runs it: its
first step is `e.Encode(&m.AccountKey)`, which passes a `*PublicKey` to
`Encoder.Encode`, whose type switch has a case for the value type
`ag_solanago.PublicKey` only (and `PublicKey` does not implement the local
`Encodable` interface), so the call falls through to the `default` branch
and returns an unsupported-type error before any byte of the lookup is
written. -/
def encodeLookupGo (_l : AddrTableLookup) : Option (List Nat) := none

/-- Encoding of the lookup list body (the per-item loop of the
`*SmallVec[uint8, MessageAddressTableLookup]` case of `Encoder.Encode`):
fails as soon as one item fails. -/
def encodeLookupsGo : List AddrTableLookup → Option (List Nat)
  | [] => some []
  | l :: ls =>
    match encodeLookupGo l with
    | none => none
    | some bs =>
      match encodeLookupsGo ls with
      | none => none
      | some rest => some (bs ++ rest)

/-- `TransactionMessage.EncodeWith` as the Go program runs it: the counts,
key list and instruction list always encode, but the lookup list body
errors on its first item, so the whole encode returns an error exactly when
`AddressTableLookups` is non-empty (the result models the error/success
outcome; on error Go leaves only partial bytes in the buffer and the caller
discards them). -/
def encodeTMGo (m : TxMessage) : Option (List Nat) :=
  match encodeLookupsGo m.addressTableLookups with
  | none => none
  | some lbytes =>
    some (encU8 m.numSigners ++ encU8 m.numWritableSigners ++ encU8 m.numWritableNonSigners
      ++ encU8 m.accountKeys.length ++ m.accountKeys.flatten
      ++ encU8 m.instructions.length ++ (m.instructions.map encodeCI).flatten
      ++ encU8 m.addressTableLookups.length ++ lbytes)

/-- Read one byte (`binary.Read` of a `uint8`); fails on exhausted input. -/
def readByte : List Nat → Option (Nat × List Nat)
  | [] => none
  | b :: rest => some (b, rest)

/-- Read exactly `n` bytes (`io.ReadFull`); fails when fewer remain. -/
def readBytes (n : Nat) (bs : List Nat) : Option (List Nat × List Nat) :=
  if n ≤ bs.length then some (bs.take n, bs.drop n) else none

/-- Read a little-endian `uint16` (low byte first). -/
def readU16 (bs : List Nat) : Option (Nat × List Nat) :=
  match readByte bs with
  | none => none
  | some (b0, bs1) =>
    match readByte bs1 with
    | none => none
    | some (b1, bs2) => some (b0 + 256 * b1, bs2)

/-- Run the element decoder `p` exactly `n` times in sequence. -/
def readN {α : Type} (p : List Nat → Option (α × List Nat)) :
    Nat → List Nat → Option (List α × List Nat)
  | 0, bs => some ([], bs)
  | n + 1, bs =>
    match p bs with
    | none => none
    | some (a, bs1) =>
      match readN p n bs1 with
      | none => none
      | some (as, bs2) => some (a :: as, bs2)

/-- `CompiledInstruction.DecodeWith`. -/
def decodeCI (bs : List Nat) : Option (CompiledInstr × List Nat) :=
  match readByte bs with
  | none => none
  | some (pidx, bs1) =>
    match readByte bs1 with
    | none => none
    | some (alen, bs2) =>
      match readBytes alen bs2 with
      | none => none
      | some (accts, bs3) =>
        match readU16 bs3 with
        | none => none
        | some (dlen, bs4) =>
          match readBytes dlen bs4 with
          | none => none
          | some (data, bs5) => some (⟨pidx, accts, data⟩, bs5)

/-- `MessageAddressTableLookup.DecodeWith`. -/
def decodeLookup (bs : List Nat) : Option (AddrTableLookup × List Nat) :=
  match readBytes 32 bs with
  | none => none
  | some (key, bs1) =>
    match readByte bs1 with
    | none => none
    | some (wlen, bs2) =>
      match readBytes wlen bs2 with
      | none => none
      | some (w, bs3) =>
        match readByte bs3 with
        | none => none
        | some (rlen, bs4) =>
          match readBytes rlen bs4 with
          | none => none
          | some (r, bs5) => some (⟨key, w, r⟩, bs5)

/-- Decode a `SmallVec[u8, PublicKey]`: length byte, then 32 bytes per key. -/
def decodeKeys (bs : List Nat) : Option (List (List Nat) × List Nat) :=
  match readByte bs with
  | none => none
  | some (n, bs1) => readN (readBytes 32) n bs1

/-- `TransactionMessage.DecodeWith`: the three count bytes, then the three
length-prefixed lists. -/
def decodeTM (bs : List Nat) : Option (TxMessage × List Nat) :=
  match readByte bs with
  | none => none
  | some (ns, bs1) =>
    match readByte bs1 with
    | none => none
    | some (nws, bs2) =>
      match readByte bs2 with
      | none => none
      | some (nwns, bs3) =>
        match decodeKeys bs3 with
        | none => none
        | some (keys, bs4) =>
          match readByte bs4 with
          | none => none
          | some (ni, bs5) =>
            match readN decodeCI ni bs5 with
            | none => none
            | some (instrs, bs6) =>
              match readByte bs6 with
              | none => none
              | some (nl, bs7) =>
                match readN decodeLookup nl bs7 with
                | none => none
                | some (lookups, bs8) =>
                  some (⟨ns, nws, nwns, keys, instrs, lookups⟩, bs8)

/-- Well-formedness of a `TransactionMessage` value: every list length fits
its length prefix (1-byte prefixes at most 255, the 2-byte payload prefix at
most 65535), the `uint8` count fields are byte values, and every public key
is 32 bytes, as Go's types guarantee. -/
def TxMessage.FitsPrefixes (m : TxMessage) : Prop :=
  m.numSigners < 256 ∧ m.numWritableSigners < 256 ∧ m.numWritableNonSigners < 256 ∧
  m.accountKeys.length ≤ 255 ∧ (∀ k ∈ m.accountKeys, k.length = 32) ∧
  m.instructions.length ≤ 255 ∧
  (∀ ci ∈ m.instructions, ci.programIdIndex < 256 ∧
    ci.accountIndexes.length ≤ 255 ∧ ci.data.length ≤ 65535) ∧
  m.addressTableLookups.length ≤ 255 ∧
  (∀ l ∈ m.addressTableLookups, l.accountKey.length = 32 ∧
    l.writableIndexes.length ≤ 255 ∧ l.readonlyIndexes.length ≤ 255)

instance (m : TxMessage) : Decidable m.FitsPrefixes := by
  unfold TxMessage.FitsPrefixes; infer_instance

theorem readByte_enc (v : Nat) (h : v < 256) (rest : List Nat) :
    readByte (encU8 v ++ rest) = some (v, rest) := by
  simp [encU8, readByte, Nat.mod_eq_of_lt h]

theorem readBytes_enc (xs rest : List Nat) :
    readBytes xs.length (xs ++ rest) = some (xs, rest) := by
  simp [readBytes, List.take_left, List.drop_left]

theorem readU16_enc (v : Nat) (h : v ≤ 65535) (rest : List Nat) :
    readU16 (encU16 v ++ rest) = some (v, rest) := by
  have h1 : v % 256 + 256 * (v / 256 % 256) = v := by omega
  simp [encU16, readU16, readByte, h1]

theorem readN_enc {α : Type} (p : List Nat → Option (α × List Nat))
    (enc : α → List Nat) (xs : List α)
    (hp : ∀ a ∈ xs, ∀ rest, p (enc a ++ rest) = some (a, rest)) (rest : List Nat) :
    readN p xs.length ((xs.map enc).flatten ++ rest) = some (xs, rest) := by
  induction xs with
  | nil => simp [readN]
  | cons a as ih =>
    have ha := hp a (List.mem_cons_self a as)
    simp only [List.map_cons, List.flatten_cons, List.length_cons, readN,
      List.append_assoc, ha]
    rw [ih (fun x hx => hp x (List.mem_cons_of_mem a hx))]

theorem decodeCI_enc (ci : CompiledInstr) (h1 : ci.programIdIndex < 256)
    (h2 : ci.accountIndexes.length ≤ 255) (h3 : ci.data.length ≤ 65535)
    (rest : List Nat) : decodeCI (encodeCI ci ++ rest) = some (ci, rest) := by
  simp only [encodeCI, decodeCI, List.append_assoc,
    readByte_enc ci.programIdIndex h1,
    readByte_enc ci.accountIndexes.length (by omega),
    readBytes_enc, readU16_enc ci.data.length h3]

theorem decodeLookup_enc (l : AddrTableLookup) (h1 : l.accountKey.length = 32)
    (h2 : l.writableIndexes.length ≤ 255) (h3 : l.readonlyIndexes.length ≤ 255)
    (rest : List Nat) : decodeLookup (encodeLookup l ++ rest) = some (l, rest) := by
  have hkey : ∀ r : List Nat, readBytes 32 (l.accountKey ++ r) = some (l.accountKey, r) := by
    intro r; rw [← h1]; exact readBytes_enc _ _
  simp only [encodeLookup, decodeLookup, List.append_assoc, hkey,
    readByte_enc l.writableIndexes.length (by omega),
    readByte_enc l.readonlyIndexes.length (by omega), readBytes_enc]

theorem decodeKeys_enc (keys : List (List Nat)) (h1 : keys.length ≤ 255)
    (h2 : ∀ k ∈ keys, k.length = 32) (rest : List Nat) :
    decodeKeys (encU8 keys.length ++ keys.flatten ++ rest) = some (keys, rest) := by
  simp only [decodeKeys, List.append_assoc, readByte_enc keys.length (by omega)]
  have : keys.map id = keys := List.map_id keys
  calc readN (readBytes 32) keys.length (keys.flatten ++ rest)
      = readN (readBytes 32) keys.length ((keys.map id).flatten ++ rest) := by
        rw [List.map_id]
    _ = some (keys, rest) := by
        refine readN_enc (readBytes 32) id keys (fun k hk rest' => ?_) rest
        rw [show (32 : Nat) = k.length from (h2 k hk).symm]
        exact readBytes_enc k rest'

/-- Round trip: decoding the encoding of a message whose lists fit their
length prefixes returns the message unchanged and consumes exactly its
encoding. -/
theorem decodeTM_encodeTM (m : TxMessage) (h : m.FitsPrefixes) (rest : List Nat) :
    decodeTM (encodeTM m ++ rest) = some (m, rest) := by
  obtain ⟨h1, h2, h3, h4, h5, h6, h7, h8, h9⟩ := h
  have hkeys : ∀ r : List Nat,
      decodeKeys (encU8 m.accountKeys.length ++ (m.accountKeys.flatten ++ r)) =
        some (m.accountKeys, r) := by
    intro r; rw [← List.append_assoc]; exact decodeKeys_enc m.accountKeys h4 h5 r
  have hinstr : ∀ r : List Nat,
      readN decodeCI m.instructions.length ((m.instructions.map encodeCI).flatten ++ r) =
        some (m.instructions, r) :=
    fun r => readN_enc decodeCI encodeCI m.instructions
      (fun ci hci r' =>
        decodeCI_enc ci (h7 ci hci).1 (h7 ci hci).2.1 (h7 ci hci).2.2 r') r
  have hlk : ∀ r : List Nat,
      readN decodeLookup m.addressTableLookups.length
          ((m.addressTableLookups.map encodeLookup).flatten ++ r) =
        some (m.addressTableLookups, r) :=
    fun r => readN_enc decodeLookup encodeLookup m.addressTableLookups
      (fun l hl r' =>
        decodeLookup_enc l (h9 l hl).1 (h9 l hl).2.1 (h9 l hl).2.2 r') r
  simp only [encodeTM, decodeTM, List.append_assoc,
    readByte_enc m.numSigners h1, readByte_enc m.numWritableSigners h2,
    readByte_enc m.numWritableNonSigners h3, hkeys,
    readByte_enc m.instructions.length (by omega), hinstr,
    readByte_enc m.addressTableLookups.length (by omega), hlk]

/-! Monotonicity: a successful decode is unaffected by extra trailing bytes.
This captures that the Go decoder reads strictly left to right from the
stream and never looks past what it consumes. -/

theorem readByte_mono {bs t : List Nat} {a : Nat} {r : List Nat}
    (h : readByte bs = some (a, r)) : readByte (bs ++ t) = some (a, r ++ t) := by
  cases bs with
  | nil => simp [readByte] at h
  | cons b rest =>
    simp only [readByte, Option.some.injEq, Prod.mk.injEq] at h
    simp [readByte, h.1, h.2]

theorem readBytes_mono {n : Nat} {bs t xs r : List Nat}
    (h : readBytes n bs = some (xs, r)) :
    readBytes n (bs ++ t) = some (xs, r ++ t) := by
  unfold readBytes at h ⊢
  by_cases hn : n ≤ bs.length
  · simp only [hn, if_pos, Option.some.injEq, Prod.mk.injEq] at h
    have hn' : n ≤ (bs ++ t).length := by simp; omega
    simp only [hn', if_pos, Option.some.injEq, Prod.mk.injEq]
    constructor
    · rw [← h.1]; exact List.take_append_of_le_length hn
    · rw [← h.2]; exact List.drop_append_of_le_length hn
  · simp [hn] at h

theorem readU16_mono {bs t : List Nat} {v : Nat} {r : List Nat}
    (h : readU16 bs = some (v, r)) : readU16 (bs ++ t) = some (v, r ++ t) := by
  unfold readU16 at h ⊢
  split at h
  · exact absurd h (by simp)
  next b0 bs1 h0 =>
    split at h
    · exact absurd h (by simp)
    next b1 bs2 h1 =>
      simp only [readByte_mono h0, readByte_mono h1]
      simpa using h

theorem readN_mono {α : Type} {p : List Nat → Option (α × List Nat)}
    (hp : ∀ {bs t : List Nat} {a : α} {r : List Nat},
      p bs = some (a, r) → p (bs ++ t) = some (a, r ++ t)) :
    ∀ {n : Nat} {bs t : List Nat} {as : List α} {r : List Nat},
      readN p n bs = some (as, r) → readN p n (bs ++ t) = some (as, r ++ t) := by
  intro n
  induction n with
  | zero => intro bs t as r h; simp only [readN, Option.some.injEq, Prod.mk.injEq] at h ⊢
            exact ⟨h.1, by rw [h.2]⟩
  | succ n ih =>
    intro bs t as r h
    unfold readN at h ⊢
    split at h
    · exact absurd h (by simp)
    next a bs1 h0 =>
      split at h
      · exact absurd h (by simp)
      next as1 bs2 h1 =>
        simp only [hp h0, ih h1]
        simpa using h

theorem decodeCI_mono {bs t : List Nat} {ci : CompiledInstr} {r : List Nat}
    (h : decodeCI bs = some (ci, r)) : decodeCI (bs ++ t) = some (ci, r ++ t) := by
  unfold decodeCI at h ⊢
  split at h
  · exact absurd h (by simp)
  next pidx bs1 h0 =>
    split at h
    · exact absurd h (by simp)
    next alen bs2 h1 =>
      split at h
      · exact absurd h (by simp)
      next accts bs3 h2 =>
        split at h
        · exact absurd h (by simp)
        next dlen bs4 h3 =>
          split at h
          · exact absurd h (by simp)
          next data bs5 h4 =>
            simp only [readByte_mono h0, readByte_mono h1, readBytes_mono h2,
              readU16_mono h3, readBytes_mono h4]
            simpa using h

theorem decodeLookup_mono {bs t : List Nat} {l : AddrTableLookup} {r : List Nat}
    (h : decodeLookup bs = some (l, r)) : decodeLookup (bs ++ t) = some (l, r ++ t) := by
  unfold decodeLookup at h ⊢
  split at h
  · exact absurd h (by simp)
  next key bs1 h0 =>
    split at h
    · exact absurd h (by simp)
    next wlen bs2 h1 =>
      split at h
      · exact absurd h (by simp)
      next w bs3 h2 =>
        split at h
        · exact absurd h (by simp)
        next rlen bs4 h3 =>
          split at h
          · exact absurd h (by simp)
          next rr bs5 h4 =>
            simp only [readBytes_mono h0, readByte_mono h1, readBytes_mono h2,
              readByte_mono h3, readBytes_mono h4]
            simpa using h

theorem decodeKeys_mono {bs t : List Nat} {keys : List (List Nat)} {r : List Nat}
    (h : decodeKeys bs = some (keys, r)) : decodeKeys (bs ++ t) = some (keys, r ++ t) := by
  unfold decodeKeys at h ⊢
  split at h
  · exact absurd h (by simp)
  next n bs1 h0 =>
    simp only [readByte_mono h0]
    exact readN_mono (fun hx => readBytes_mono hx) h

theorem decodeTM_mono {bs t : List Nat} {m : TxMessage} {r : List Nat}
    (h : decodeTM bs = some (m, r)) : decodeTM (bs ++ t) = some (m, r ++ t) := by
  unfold decodeTM at h ⊢
  split at h
  · exact absurd h (by simp)
  next ns bs1 h0 =>
    split at h
    · exact absurd h (by simp)
    next nws bs2 h1 =>
      split at h
      · exact absurd h (by simp)
      next nwns bs3 h2 =>
        split at h
        · exact absurd h (by simp)
        next keys bs4 h3 =>
          split at h
          · exact absurd h (by simp)
          next ni bs5 h4 =>
            split at h
            · exact absurd h (by simp)
            next instrs bs6 h5 =>
              split at h
              · exact absurd h (by simp)
              next nl bs7 h6 =>
                split at h
                · exact absurd h (by simp)
                next lookups bs8 h7 =>
                  simp only [readByte_mono h0, readByte_mono h1, readByte_mono h2,
                    decodeKeys_mono h3, readByte_mono h4,
                    readN_mono (fun hx => decodeCI_mono hx) h5,
                    readByte_mono h6,
                    readN_mono (fun hx => decodeLookup_mono hx) h7]
                  simpa using h

/-! Exactness: a successful decode consumes exactly the encoding of the
value it returns.  Inputs are genuine byte streams (every element below
256), as Go's `[]byte` guarantees. -/

/-- The list is a genuine byte stream: every element is below 256. -/
def AllBytes (bs : List Nat) : Prop := ∀ b ∈ bs, b < 256

instance (bs : List Nat) : Decidable (AllBytes bs) := by
  unfold AllBytes; infer_instance

theorem allBytes_of_append_right {xs r : List Nat} (h : AllBytes (xs ++ r)) :
    AllBytes r := fun b hb => h b (List.mem_append_right xs hb)

theorem readByte_exact {bs : List Nat} {a : Nat} {r : List Nat}
    (hb : AllBytes bs) (h : readByte bs = some (a, r)) :
    bs = encU8 a ++ r ∧ a < 256 ∧ AllBytes r := by
  cases bs with
  | nil => simp [readByte] at h
  | cons b rest =>
    simp only [readByte, Option.some.injEq, Prod.mk.injEq] at h
    obtain ⟨h1, h2⟩ := h
    subst h1; subst h2
    have ha : b < 256 := hb b (List.mem_cons_self b rest)
    exact ⟨by simp [encU8, Nat.mod_eq_of_lt ha], ha,
      fun x hx => hb x (List.mem_cons_of_mem b hx)⟩

theorem readBytes_exact {n : Nat} {bs xs r : List Nat}
    (h : readBytes n bs = some (xs, r)) : bs = xs ++ r ∧ xs.length = n := by
  unfold readBytes at h
  by_cases hn : n ≤ bs.length
  · simp only [hn, if_pos, Option.some.injEq, Prod.mk.injEq] at h
    obtain ⟨rfl, rfl⟩ := h
    exact ⟨(List.take_append_drop n bs).symm, by simp [List.length_take]; omega⟩
  · simp [hn] at h

theorem readU16_exact {bs : List Nat} {v : Nat} {r : List Nat}
    (hb : AllBytes bs) (h : readU16 bs = some (v, r)) :
    bs = encU16 v ++ r ∧ AllBytes r := by
  unfold readU16 at h
  split at h
  · exact absurd h (by simp)
  next b0 bs1 h0 =>
    split at h
    · exact absurd h (by simp)
    next b1 bs2 h1 =>
      simp only [Option.some.injEq, Prod.mk.injEq] at h
      obtain ⟨rfl, rfl⟩ := h
      obtain ⟨he0, hb0, hrest0⟩ := readByte_exact hb h0
      obtain ⟨he1, hb1, hrest1⟩ := readByte_exact hrest0 h1
      refine ⟨?_, hrest1⟩
      rw [he0, he1]
      have e0 : (b0 + 256 * b1) % 256 = b0 := by omega
      have e1 : (b0 + 256 * b1) / 256 % 256 = b1 := by omega
      simp [encU8, encU16, e0, e1, Nat.mod_eq_of_lt hb0, Nat.mod_eq_of_lt hb1]

theorem readN_exact {α : Type} {p : List Nat → Option (α × List Nat)}
    (enc : α → List Nat)
    (hp : ∀ {bs : List Nat} {a : α} {r : List Nat}, AllBytes bs →
      p bs = some (a, r) → bs = enc a ++ r ∧ AllBytes r) :
    ∀ {n : Nat} {bs : List Nat} {as : List α} {r : List Nat}, AllBytes bs →
      readN p n bs = some (as, r) →
      bs = (as.map enc).flatten ++ r ∧ AllBytes r ∧ as.length = n := by
  intro n
  induction n with
  | zero =>
    intro bs as r hb h
    simp only [readN, Option.some.injEq, Prod.mk.injEq] at h
    obtain ⟨rfl, rfl⟩ := h
    exact ⟨by simp, hb, rfl⟩
  | succ n ih =>
    intro bs as r hb h
    unfold readN at h
    split at h
    · exact absurd h (by simp)
    next a bs1 h0 =>
      split at h
      · exact absurd h (by simp)
      next as1 bs2 h1 =>
        simp only [Option.some.injEq, Prod.mk.injEq] at h
        obtain ⟨rfl, rfl⟩ := h
        obtain ⟨he0, hrest0⟩ := hp hb h0
        obtain ⟨he1, hrest1, hlen⟩ := ih hrest0 h1
        refine ⟨?_, hrest1, by simp [hlen]⟩
        rw [he0, he1]
        simp [List.append_assoc]

theorem decodeCI_exact {bs : List Nat} {ci : CompiledInstr} {r : List Nat}
    (hb : AllBytes bs) (h : decodeCI bs = some (ci, r)) :
    bs = encodeCI ci ++ r ∧ AllBytes r := by
  unfold decodeCI at h
  split at h
  · exact absurd h (by simp)
  next pidx bs1 h0 =>
    split at h
    · exact absurd h (by simp)
    next alen bs2 h1 =>
      split at h
      · exact absurd h (by simp)
      next accts bs3 h2 =>
        split at h
        · exact absurd h (by simp)
        next dlen bs4 h3 =>
          split at h
          · exact absurd h (by simp)
          next data bs5 h4 =>
            simp only [Option.some.injEq, Prod.mk.injEq] at h
            obtain ⟨rfl, rfl⟩ := h
            obtain ⟨he0, hp0, hrest0⟩ := readByte_exact hb h0
            obtain ⟨he1, hp1, hrest1⟩ := readByte_exact hrest0 h1
            obtain ⟨he2, hl2⟩ := readBytes_exact h2
            have hrest2 : AllBytes bs3 := allBytes_of_append_right (he2 ▸ hrest1)
            obtain ⟨he3, hrest3⟩ := readU16_exact hrest2 h3
            obtain ⟨he4, hl4⟩ := readBytes_exact h4
            have hrest4 : AllBytes bs5 := allBytes_of_append_right (he4 ▸ hrest3)
            refine ⟨?_, hrest4⟩
            rw [he0, he1, he2, he3, he4]
            simp [encodeCI, hl2, hl4, List.append_assoc]

theorem decodeLookup_exact {bs : List Nat} {l : AddrTableLookup} {r : List Nat}
    (hb : AllBytes bs) (h : decodeLookup bs = some (l, r)) :
    bs = encodeLookup l ++ r ∧ AllBytes r := by
  unfold decodeLookup at h
  split at h
  · exact absurd h (by simp)
  next key bs1 h0 =>
    split at h
    · exact absurd h (by simp)
    next wlen bs2 h1 =>
      split at h
      · exact absurd h (by simp)
      next w bs3 h2 =>
        split at h
        · exact absurd h (by simp)
        next rlen bs4 h3 =>
          split at h
          · exact absurd h (by simp)
          next rr bs5 h4 =>
            simp only [Option.some.injEq, Prod.mk.injEq] at h
            obtain ⟨rfl, rfl⟩ := h
            obtain ⟨he0, hl0⟩ := readBytes_exact h0
            have hrest0 : AllBytes bs1 := allBytes_of_append_right (he0 ▸ hb)
            obtain ⟨he1, hp1, hrest1⟩ := readByte_exact hrest0 h1
            obtain ⟨he2, hl2⟩ := readBytes_exact h2
            have hrest2 : AllBytes bs3 := allBytes_of_append_right (he2 ▸ hrest1)
            obtain ⟨he3, hp3, hrest3⟩ := readByte_exact hrest2 h3
            obtain ⟨he4, hl4⟩ := readBytes_exact h4
            have hrest4 : AllBytes bs5 := allBytes_of_append_right (he4 ▸ hrest3)
            refine ⟨?_, hrest4⟩
            rw [he0, he1, he2, he3, he4]
            simp [encodeLookup, hl2, hl4, List.append_assoc]

theorem decodeKeys_exact {bs : List Nat} {keys : List (List Nat)} {r : List Nat}
    (hb : AllBytes bs) (h : decodeKeys bs = some (keys, r)) :
    bs = encU8 keys.length ++ keys.flatten ++ r ∧ AllBytes r := by
  unfold decodeKeys at h
  split at h
  · exact absurd h (by simp)
  next n bs1 h0 =>
    obtain ⟨he0, hn0, hrest0⟩ := readByte_exact hb h0
    have hkey : ∀ {bs' : List Nat} {k : List Nat} {r' : List Nat}, AllBytes bs' →
        readBytes 32 bs' = some (k, r') → bs' = id k ++ r' ∧ AllBytes r' := by
      intro bs' k r' hb' h'
      obtain ⟨he, _⟩ := readBytes_exact h'
      exact ⟨he, allBytes_of_append_right (he ▸ hb')⟩
    obtain ⟨he1, hrest1, hlen⟩ := readN_exact id hkey hrest0 h
    refine ⟨?_, hrest1⟩
    rw [he0, he1]
    simp [encU8, hlen, Nat.mod_eq_of_lt hn0, List.append_assoc]

theorem decodeTM_exact {bs : List Nat} {m : TxMessage} {r : List Nat}
    (hb : AllBytes bs) (h : decodeTM bs = some (m, r)) :
    bs = encodeTM m ++ r ∧ AllBytes r := by
  unfold decodeTM at h
  split at h
  · exact absurd h (by simp)
  next ns bs1 h0 =>
    split at h
    · exact absurd h (by simp)
    next nws bs2 h1 =>
      split at h
      · exact absurd h (by simp)
      next nwns bs3 h2 =>
        split at h
        · exact absurd h (by simp)
        next keys bs4 h3 =>
          split at h
          · exact absurd h (by simp)
          next ni bs5 h4 =>
            split at h
            · exact absurd h (by simp)
            next instrs bs6 h5 =>
              split at h
              · exact absurd h (by simp)
              next nl bs7 h6 =>
                split at h
                · exact absurd h (by simp)
                next lookups bs8 h7 =>
                  simp only [Option.some.injEq, Prod.mk.injEq] at h
                  obtain ⟨rfl, rfl⟩ := h
                  obtain ⟨he0, hn0, hrest0⟩ := readByte_exact hb h0
                  obtain ⟨he1, hn1, hrest1⟩ := readByte_exact hrest0 h1
                  obtain ⟨he2, hn2, hrest2⟩ := readByte_exact hrest1 h2
                  obtain ⟨he3, hrest3⟩ := decodeKeys_exact hrest2 h3
                  obtain ⟨he4, hn4, hrest4⟩ := readByte_exact hrest3 h4
                  obtain ⟨he5, hrest5, hlen5⟩ :=
                    readN_exact encodeCI (fun hb' h' => decodeCI_exact hb' h') hrest4 h5
                  obtain ⟨he6, hn6, hrest6⟩ := readByte_exact hrest5 h6
                  obtain ⟨he7, hrest7, hlen7⟩ :=
                    readN_exact encodeLookup (fun hb' h' => decodeLookup_exact hb' h') hrest6 h7
                  refine ⟨?_, hrest7⟩
                  rw [he0, he1, he2, he3, he4, he5, he6, he7]
                  simp [encodeTM, encU8, hlen5, hlen7, Nat.mod_eq_of_lt hn4,
                    Nat.mod_eq_of_lt hn6, List.append_assoc]

/-! ## Account metadata resolver and message compiler
(cmd/multisig-create compile helpers: `CompileKeys`, `GetMessageComponents`)

Addresses are abstract naturals (the Go code keys its map by the base58
string of the address; that conversion is a bijection, so the model uses the
address itself).  The Go `map[string]CompiledKeyMeta` is modelled as an
association list whose order is the map's iteration order; `CompileKeys`
inserts in first-seen order, and every `keyMetaMap[k] = v` store updates the
existing binding in place.  Go does not fix a map iteration order, which is
why `getMessageComponents` below takes the enumeration order as part of its
input. -/

/-- `CompiledKeyMeta`: per-address signer/writable/invoked flags. -/
structure KeyMeta where
  isSigner : Bool
  isWritable : Bool
  isInvoked : Bool
deriving DecidableEq

/-- `solana.AccountMeta` as consumed by `CompileKeys`. -/
structure AccountMetaGo where
  pubkey : Nat
  isSigner : Bool
  isWritable : Bool
deriving DecidableEq

/-- An instruction as seen by the resolver: program id plus account metas. -/
structure GoInstruction where
  programId : Nat
  accounts : List AccountMetaGo
deriving DecidableEq

/-- Look up the meta stored for address `k`. -/
def lookupMeta (m : List (Nat × KeyMeta)) (k : Nat) : Option KeyMeta :=
  (m.find? (fun e => e.1 == k)).map Prod.snd

/-- `getOrInsertDefault`, insertion half: add an all-false binding for a
previously unseen address. -/
def insertDefault (m : List (Nat × KeyMeta)) (k : Nat) : List (Nat × KeyMeta) :=
  if (m.find? (fun e => e.1 == k)).isSome then m else m ++ [(k, ⟨false, false, false⟩)]

/-- `keyMetaMap[address] = value`: update the existing binding in place. -/
def setMeta (m : List (Nat × KeyMeta)) (k : Nat) (v : KeyMeta) : List (Nat × KeyMeta) :=
  m.map (fun e => if e.1 == k then (k, v) else e)

/-- `getOrInsertDefault` followed by reading the current meta. -/
def getOrInsertDefaultMeta (m : List (Nat × KeyMeta)) (k : Nat) :
    List (Nat × KeyMeta) × KeyMeta :=
  let m' := insertDefault m k
  (m', (lookupMeta m' k).getD ⟨false, false, false⟩)

/-- Account step of `CompileKeys`: OR the occurrence's signer/writable flags
into the aggregate record. -/
def applyAccountMeta (m : List (Nat × KeyMeta)) (am : AccountMetaGo) :
    List (Nat × KeyMeta) :=
  let (m', meta) := getOrInsertDefaultMeta m am.pubkey
  setMeta m' am.pubkey
    ⟨meta.isSigner || am.isSigner, meta.isWritable || am.isWritable, meta.isInvoked⟩

/-- Instruction step of `CompileKeys`: the program address is stored with
`IsInvoked = false` (create.go line 332 writes `false`, not `true`), then
each listed account is accumulated. -/
def applyInstruction (m : List (Nat × KeyMeta)) (ix : GoInstruction) :
    List (Nat × KeyMeta) :=
  let (m', meta) := getOrInsertDefaultMeta m ix.programId
  let m'' := setMeta m' ix.programId ⟨meta.isSigner, meta.isWritable, false⟩
  ix.accounts.foldl applyAccountMeta m''

/-- `CompileKeys`: force the fee payer signer+writable, then process every
instruction in order. -/
def compileKeys (instructions : List GoInstruction) (payer : Nat) :
    List (Nat × KeyMeta) :=
  let (m0, pmeta) := getOrInsertDefaultMeta [] payer
  let m1 := setMeta m0 payer ⟨true, true, pmeta.isInvoked⟩
  instructions.foldl applyInstruction m1

/-- `solana.MessageHeader` (all fields `uint8`). -/
structure MsgHeader where
  numRequiredSignatures : Nat
  numReadonlySignedAccounts : Nat
  numReadonlyUnsignedAccounts : Nat
deriving DecidableEq

/-- Loop body of `GetMessageComponents`: append the address to the bucket
selected by its signer/writable flags (if / else-if chain of create.go lines
350-358). -/
def bucketStep (acc : List Nat × List Nat × List Nat × List Nat)
    (e : Nat × KeyMeta) : List Nat × List Nat × List Nat × List Nat :=
  let (ws, rs, wns, rns) := acc
  if e.2.isSigner && e.2.isWritable then (ws ++ [e.1], rs, wns, rns)
  else if e.2.isSigner && !e.2.isWritable then (ws, rs ++ [e.1], wns, rns)
  else if !e.2.isSigner && e.2.isWritable then (ws, rs, wns ++ [e.1], rns)
  else (ws, rs, wns, rns ++ [e.1])

/-- `GetMessageComponents`: one pass over the key-meta map in its iteration
order, building the four buckets; the header counts are `uint8` casts of the
bucket sizes and the static key list is the four buckets concatenated. -/
def getMessageComponents (m : List (Nat × KeyMeta)) : MsgHeader × List Nat :=
  let (ws, rs, wns, rns) := m.foldl bucketStep ([], [], [], [])
  (⟨(ws.length + rs.length) % 256, rs.length % 256, rns.length % 256⟩,
   ws ++ rs ++ wns ++ rns)

/-- Writable-signer bucket of a key-meta map, in iteration order. -/
def writableSigners (m : List (Nat × KeyMeta)) : List Nat :=
  (m.filter (fun e => e.2.isSigner && e.2.isWritable)).map Prod.fst

/-- Readonly-signer bucket of a key-meta map, in iteration order. -/
def readonlySigners (m : List (Nat × KeyMeta)) : List Nat :=
  (m.filter (fun e => e.2.isSigner && !e.2.isWritable)).map Prod.fst

/-- Writable-non-signer bucket of a key-meta map, in iteration order. -/
def writableNonSigners (m : List (Nat × KeyMeta)) : List Nat :=
  (m.filter (fun e => !e.2.isSigner && e.2.isWritable)).map Prod.fst

/-- Readonly-non-signer bucket of a key-meta map, in iteration order. -/
def readonlyNonSigners (m : List (Nat × KeyMeta)) : List Nat :=
  (m.filter (fun e => !e.2.isSigner && !e.2.isWritable)).map Prod.fst

theorem foldl_bucketStep (m : List (Nat × KeyMeta)) :
    ∀ a b c d : List Nat,
      m.foldl bucketStep (a, b, c, d) =
        (a ++ writableSigners m, b ++ readonlySigners m,
         c ++ writableNonSigners m, d ++ readonlyNonSigners m) := by
  induction m with
  | nil =>
    intro a b c d
    simp [writableSigners, readonlySigners, writableNonSigners, readonlyNonSigners]
  | cons e es ih =>
    intro a b c d
    rw [List.foldl_cons]
    cases hS : e.2.isSigner <;> cases hW : e.2.isWritable <;>
      simp only [bucketStep, hS, hW, Bool.true_and, Bool.false_and, Bool.not_true,
        Bool.not_false, Bool.and_true, Bool.and_false, if_true, if_false,
        Bool.and_self, Bool.true_and] <;>
      rw [ih] <;>
      simp [writableSigners, readonlySigners, writableNonSigners, readonlyNonSigners,
        List.filter_cons, hS, hW, List.append_assoc]

/-! ## Vote pipeline (pkg/transaction/approve.go, `VoteOnProposal`) -/

/-- Inputs of `VoteOnProposal` (the RPC/WS clients are collaborators; the
account contents they would return are passed in explicitly). -/
structure VoteInput where
  multisig : Nat
  transactionIndex : Nat
  voter : Nat
  memo : String
  action : String
deriving DecidableEq

/-- Decoded proposal record: tagged status plus the three vote sets. -/
structure ProposalRec where
  status : PropStatus
  approved : List Nat
  rejected : List Nat
  cancelled : List Nat
deriving DecidableEq

/-- Local errors of `VoteOnProposal` before submission. -/
inductive VoteError
  | invalidAction (a : String)
  | multisigNotFound
  | proposalNotFound
deriving DecidableEq

/-- Abstract stand-in for `solana.SystemProgramID`. -/
def systemProgramId : Nat := 11

/-- Modelled from the spec: `GetProposalPDA` of pkg/multisig (not included
in the sources) derives the proposal address deterministically from the
multisig address and the transaction index (seed list
`("multisig", multisigAddress, "transaction", index-LE, "proposal")`); the
hash-and-bump search is abstracted by an injective pairing of the two
seeds, which no claim inspects. -/
def getProposalPDA (ms txIndex : Nat) : Nat := Nat.pair ms txIndex

/-- Vote instruction built by `VoteOnProposal`: one of the three generated
builders, carrying the memo argument and the accounts passed to it. -/
inductive VoteIx
  | approveIx (memo : Option String) (multisig voter proposal : Nat)
  | rejectIx (memo : Option String) (multisig voter proposal : Nat)
  | cancelV2Ix (memo : Option String) (multisig voter proposal sysProg : Nat)
deriving DecidableEq

/-- Network effects `VoteOnProposal` can perform, in order. -/
inductive NetEffect
  | fetchAccount (addr : Nat)
  | getLatestBlockhash
  | sendTransaction (ix : VoteIx)
deriving DecidableEq

/-- `VoteOnProposal`: validate the action (empty defaults to approve,
anything else outside the three verbs is rejected before any account is
fetched), check that the multisig and proposal accounts exist, build the
vote instruction for the action and submit it.  The function returns its
result together with the ordered list of network effects it performed;
note that the decoded proposal content is never inspected.  The lazy RPC
client and WebSocket construction of the Go function also happen only
after the action validation and are elided here. -/
def voteOnProposal (input : VoteInput) (multisigPresent : Bool)
    (proposal : Option ProposalRec) : Except VoteError VoteIx × List NetEffect :=
  let action := if input.action = "" then "approve" else input.action
  if action ≠ "approve" ∧ action ≠ "reject" ∧ action ≠ "cancel" then
    (.error (.invalidAction action), [])
  else
    let proposalPDA := getProposalPDA input.multisig input.transactionIndex
    if ¬ multisigPresent then
      (.error .multisigNotFound, [.fetchAccount input.multisig])
    else
      match proposal with
      | none =>
        (.error .proposalNotFound,
         [.fetchAccount input.multisig, .fetchAccount proposalPDA])
      | some _ =>
        let memoArg := if input.memo = "" then none else some input.memo
        let ix :=
          if action = "approve" then
            VoteIx.approveIx memoArg input.multisig input.voter proposalPDA
          else if action = "reject" then
            VoteIx.rejectIx memoArg input.multisig input.voter proposalPDA
          else
            VoteIx.cancelV2Ix memoArg input.multisig input.voter proposalPDA
              systemProgramId
        (.ok ix,
         [.fetchAccount input.multisig, .fetchAccount proposalPDA,
          .getLatestBlockhash, .sendTransaction ix])

/-- Status discriminator used to state the section-4.5 conditions. -/
def statusIsActiveB : PropStatus → Bool
  | .active _ => true
  | _ => false

/-! ## Claim theorems -/

/-- Claim C1: the claim states that `ExecuteProposal` reconstructs the
writable flag per the partition invariant, in particular marking a
readonly-signer position not writable.  The code disagrees: at position
`i = 1` with counts `numSigners = 2`, `numWritableSigners = 1`,
`numWritableNonSigners = 0` (a readonly-signer position) the signed
comparison `i - numSigners < numWritableNonSigners` is `-1 < 0`, so the
code appends the account as writable while the invariant dictates
not writable; the full dynamic meta list for a two-key message shows the
readonly-signer position 1 appended writable (and never a signer). -/
theorem claimC1_readonly_signer_marked_writable :
    execWritableFlag 2 1 0 1 = true ∧ partitionWritableFlag 2 1 0 1 = false ∧
    executeDynamicMetas 2 1 0 [8, 9] = [(8, true, false), (9, true, false)] := by
  decide

/-- Claim C2 counterexample: `VoteOnProposal` builds and submits an approve
instruction even though the proposal's status is `Executed` (not `Active`)
and the voter already appears in the approved vote set — no section-4.5
legality check runs before submission, contradicting the claim. -/
theorem claimC2_counterexample :
    7 ∈ (ProposalRec.mk (.executed 5) [7] [] []).approved ∧
    statusIsActiveB (ProposalRec.mk (.executed 5) [7] [] []).status = false ∧
    (voteOnProposal ⟨1, 1, 7, "", "approve"⟩ true
        (some (ProposalRec.mk (.executed 5) [7] [] []))).1 =
      .ok (VoteIx.approveIx none 1 7 (getProposalPDA 1 1)) :=
  ⟨by decide, by decide, rfl⟩

/-- Claim C2 (amended): `VoteOnProposal` validates only the action string
and the existence of the multisig and proposal accounts before constructing
and submitting the vote instruction; it performs no proposal-status or
already-voted check — its result is identical for any two decoded proposal
records, and any valid (or empty) action on existing accounts reaches
submission. -/
theorem claimC2_no_legality_check :
    ∀ (input : VoteInput) (msPresent : Bool) (p q : ProposalRec),
      voteOnProposal input msPresent (some p) = voteOnProposal input msPresent (some q) ∧
      ((input.action = "" ∨ input.action = "approve" ∨ input.action = "reject" ∨
          input.action = "cancel") → msPresent = true →
        (voteOnProposal input msPresent (some p)).1.isOk = true) := by
  intro input msPresent p q
  refine ⟨rfl, ?_⟩
  intro ha hms
  subst hms
  obtain ⟨ms, ti, v, memo, act⟩ := input
  rcases ha with ha | ha | ha | ha <;> (simp only at ha; subst ha) <;> rfl

/-- Claim C2 witness: the amended theorem applied at a concrete approve vote
over two different proposal records. -/
theorem claimC2_no_legality_check_witness :
    voteOnProposal ⟨1, 2, 3, "", "approve"⟩ true (some ⟨.active 0, [], [], []⟩) =
      voteOnProposal ⟨1, 2, 3, "", "approve"⟩ true (some ⟨.draft 0, [5], [], []⟩) ∧
    (voteOnProposal ⟨1, 2, 3, "", "approve"⟩ true
        (some ⟨.active 0, [], [], []⟩)).1.isOk = true :=
  ⟨(claimC2_no_legality_check ⟨1, 2, 3, "", "approve"⟩ true
      ⟨.active 0, [], [], []⟩ ⟨.draft 0, [5], [], []⟩).1,
   (claimC2_no_legality_check ⟨1, 2, 3, "", "approve"⟩ true
      ⟨.active 0, [], [], []⟩ ⟨.draft 0, [5], [], []⟩).2 (Or.inr (Or.inl rfl)) rfl⟩

/-- Claim C3 counterexample: with a time-lock of exactly 0 seconds the code
skips the time comparison entirely, so it proceeds to submission even when
the current time is strictly before the recorded approval timestamp —
the claimed precondition `now ≥ approvedTimestamp + timeLock` is violated
yet no timelock-not-elapsed error is returned. -/
theorem claimC3_counterexample :
    executeCheck (.approved 100) 0 0 [⟨0, 4⟩] 0 = .ok () ∧ (0 : Int) < 100 + (0 : Nat) :=
  ⟨rfl, by decide⟩

/-- Claim C3 (amended): `ExecuteProposal` submits only when the status is
exactly `Approved` (else a not-approved error), the time-lock is zero or
`now ≥ approvedTimestamp + timeLock` (else a timelock-not-elapsed error;
with a zero time-lock no time comparison is made at all, so an `Approved`
proposal is executable immediately), and the executor has the execute bit
(value 4, else a no-execute-permission error); a member whose permission
mask is 0 is always rejected. -/
theorem claimC3_execute_preconditions :
    ∀ (ts : Int) (timeLock : Nat) (now : Int) (members : List Member) (executor : Nat),
      (executeCheck (.approved ts) timeLock now members executor = .ok () ↔
        ((timeLock = 0 ∨ ts + timeLock ≤ now) ∧ HasExecBit members executor)) ∧
      (timeLock ≠ 0 → now < ts + timeLock →
        executeCheck (.approved ts) timeLock now members executor =
          .error .timelockNotElapsed) ∧
      ((timeLock = 0 ∨ ts + timeLock ≤ now) → ¬ HasExecBit members executor →
        executeCheck (.approved ts) timeLock now members executor =
          .error .noExecutePermission) ∧
      (∀ status : PropStatus, (∀ ts' : Int, status ≠ .approved ts') →
        executeCheck status timeLock now members executor = .error .notApproved) ∧
      ((∀ mb ∈ members, mb.key = executor → mb.mask = 0) →
        executeCheck (.approved ts) timeLock now members executor ≠ .ok ()) := by
  intro ts tl now members ex
  have hperm := hasExecutePermission_iff members ex
  refine ⟨?_, ?_, ?_, ?_, ?_⟩
  · simp only [executeCheck]
    by_cases h1 : now < ts + (tl : Int) ∧ tl > 0
    · rw [if_pos h1]
      constructor
      · intro h; exact absurd h (by simp)
      · rintro ⟨htl | hle, _⟩ <;> omega
    · rw [if_neg h1]
      by_cases h2 : hasExecutePermission members ex = true
      · rw [if_pos h2]
        exact ⟨fun _ => ⟨by omega, hperm.mp h2⟩, fun _ => rfl⟩
      · rw [if_neg h2]
        constructor
        · intro h; exact absurd h (by simp)
        · rintro ⟨_, hb⟩; exact absurd (hperm.mpr hb) h2
  · intro htl hlt
    have hc : now < ts + (tl : Int) ∧ tl > 0 := ⟨hlt, Nat.pos_of_ne_zero htl⟩
    simp only [executeCheck]
    rw [if_pos hc]
  · intro htime hnoperm
    have hcond : ¬ (now < ts + (tl : Int) ∧ tl > 0) := by
      rcases htime with h | h <;> omega
    simp only [executeCheck]
    rw [if_neg hcond, if_neg (fun hc => hnoperm (hperm.mp hc))]
  · intro status hne
    cases status with
    | approved ts' => exact absurd rfl (hne ts')
    | draft ts' => rfl
    | active ts' => rfl
    | rejected ts' => rfl
    | executing => rfl
    | executed ts' => rfl
    | cancelled ts' => rfl
  · intro hall hok
    have hnb : ¬ HasExecBit members ex := by
      rintro ⟨mb, hmb, hk, hmask⟩
      exact hmask (by simp [hall mb hmb hk])
    simp only [executeCheck] at hok
    split at hok
    · exact absurd hok (by simp)
    · split at hok
      next hc => exact hnb (hperm.mp hc)
      next hc => exact absurd hok (by simp)

/-- Claim C3 witness: the amended theorem applied at concrete inputs for
the timelock error, the not-approved error, and the mask-0 rejection. -/
theorem claimC3_execute_preconditions_witness :
    executeCheck (.approved 0) 10 5 [⟨2, 4⟩] 2 = .error .timelockNotElapsed ∧
    executeCheck (.draft 0) 10 5 [⟨2, 4⟩] 2 = .error .notApproved ∧
    executeCheck (.approved 0) 0 5 [⟨2, 0⟩] 2 ≠ .ok () :=
  ⟨(claimC3_execute_preconditions 0 10 5 [⟨2, 4⟩] 2).2.1 (by decide) (by decide),
   (claimC3_execute_preconditions 0 10 5 [⟨2, 4⟩] 2).2.2.2.1 (.draft 0)
     (fun ts' h => PropStatus.noConfusion h),
   (claimC3_execute_preconditions 0 0 5 [⟨2, 0⟩] 2).2.2.2.2 (by decide)⟩

/-- Claim C4: the claim states that every instruction's program address has
its invoked flag set to true, but `CompileKeys` stores `IsInvoked = false`
(create.go line 332): resolving one instruction with program address 1 and
no accounts under fee payer 0 leaves the program's aggregate record with
all three flags false, while the fee payer is correctly forced
signer+writable and the signer/writable flags of a repeated account are
correctly OR-accumulated across occurrences. -/
theorem claimC4_program_invoked_false :
    lookupMeta (compileKeys [⟨1, []⟩] 0) 1 = some ⟨false, false, false⟩ ∧
    lookupMeta (compileKeys [⟨1, []⟩] 0) 0 = some ⟨true, true, false⟩ ∧
    lookupMeta (compileKeys [⟨1, [⟨2, false, true⟩]⟩, ⟨1, [⟨2, true, false⟩]⟩] 0) 2 =
      some ⟨true, true, false⟩ := by
  decide

/-- Fitting message with one key, one instruction and one lookup: a
concrete input on which the Go encoder fails. -/
def c5Msg : TxMessage :=
  ⟨1, 2, 3, [List.replicate 32 9], [⟨1, [1, 2, 3], [1, 2, 3, 4]⟩],
   [⟨List.replicate 32 4, [0], [2]⟩]⟩

/-- Fitting message with one key and one instruction and no lookups, on
which the Go encoder succeeds. -/
def c5MsgEmpty : TxMessage :=
  ⟨1, 2, 3, [List.replicate 32 9], [⟨1, [1, 2, 3], [1, 2, 3, 4]⟩], []⟩

/-- Claim C5: the claimed round trip through "every address-table lookup"
is impossible — `TransactionMessage.EncodeWith` returns an unsupported-type
error for every message with a non-empty lookup list, because
`MessageAddressTableLookup.EncodeWith` hands `Encoder.Encode` a pointer to
the key while the type switch only handles the value type, so no bytes are
ever produced for such a message (first conjunct, the failing input); on
every message the encoder does encode, decoding the produced bytes yields
the message unchanged in all fields (second conjunct). -/
theorem claimC5_lookup_encode_unsupported :
    encodeTMGo c5Msg = none ∧
    (∀ (m : TxMessage) (bs : List Nat), m.FitsPrefixes → encodeTMGo m = some bs →
      decodeTM bs = some (m, [])) := by
  constructor
  · rfl
  · intro m bs hfit henc
    have hbs : m.addressTableLookups = [] ∧ bs = encodeTM m := by
      cases hl : m.addressTableLookups with
      | nil =>
        unfold encodeTMGo at henc
        rw [hl] at henc
        simp only [encodeLookupsGo, Option.some.injEq] at henc
        refine ⟨rfl, ?_⟩
        rw [← henc]
        simp [encodeTM, hl]
      | cons l ls =>
        unfold encodeTMGo at henc
        rw [hl] at henc
        simp [encodeLookupsGo, encodeLookupGo] at henc
    rw [hbs.2]
    have hrt := decodeTM_encodeTM m hfit []
    rwa [List.append_nil] at hrt

/-- Claim C5 witness: the encoder succeeds on the lookup-free message and
the round trip holds there, via the theorem's second conjunct. -/
theorem claimC5_lookup_encode_unsupported_witness :
    encodeTMGo c5MsgEmpty = some (encodeTM c5MsgEmpty) ∧
    decodeTM (encodeTM c5MsgEmpty) = some (c5MsgEmpty, []) :=
  ⟨by decide,
   claimC5_lookup_encode_unsupported.2 c5MsgEmpty (encodeTM c5MsgEmpty)
     (by decide) (by decide)⟩

/-- Claim C6: for every resolved metadata map (in its iteration order), the
static key list of `GetMessageComponents` is the concatenation of the
writable-signer, readonly-signer, writable-non-signer and
readonly-non-signer buckets in that fixed order, and (whenever the byte
fields can hold them) the header counts are the corresponding bucket sizes. -/
theorem claimC6_bucket_concatenation :
    ∀ m : List (Nat × KeyMeta),
      (getMessageComponents m).2 =
        writableSigners m ++ readonlySigners m ++ writableNonSigners m ++
          readonlyNonSigners m ∧
      ((writableSigners m).length + (readonlySigners m).length ≤ 255 →
        (readonlySigners m).length ≤ 255 → (readonlyNonSigners m).length ≤ 255 →
        (getMessageComponents m).1 =
          ⟨(writableSigners m).length + (readonlySigners m).length,
           (readonlySigners m).length, (readonlyNonSigners m).length⟩) := by
  intro m
  constructor
  · simp [getMessageComponents, foldl_bucketStep m [] [] [] []]
  · intro h1 h2 h3
    simp only [getMessageComponents, foldl_bucketStep m [] [] [] [], List.nil_append]
    congr 1 <;> omega

/-- Claim C6 witness: the bucket decomposition evaluated on a four-entry
map containing one address of each class. -/
theorem claimC6_bucket_concatenation_witness :
    (getMessageComponents
        [(1, ⟨true, true, false⟩), (2, ⟨true, false, false⟩),
         (3, ⟨false, true, false⟩), (4, ⟨false, false, false⟩)]).2 =
      writableSigners
          [(1, ⟨true, true, false⟩), (2, ⟨true, false, false⟩),
           (3, ⟨false, true, false⟩), (4, ⟨false, false, false⟩)] ++
        readonlySigners
          [(1, ⟨true, true, false⟩), (2, ⟨true, false, false⟩),
           (3, ⟨false, true, false⟩), (4, ⟨false, false, false⟩)] ++
        writableNonSigners
          [(1, ⟨true, true, false⟩), (2, ⟨true, false, false⟩),
           (3, ⟨false, true, false⟩), (4, ⟨false, false, false⟩)] ++
        readonlyNonSigners
          [(1, ⟨true, true, false⟩), (2, ⟨true, false, false⟩),
           (3, ⟨false, true, false⟩), (4, ⟨false, false, false⟩)] ∧
    (getMessageComponents
        [(1, ⟨true, true, false⟩), (2, ⟨true, false, false⟩),
         (3, ⟨false, true, false⟩), (4, ⟨false, false, false⟩)]).1 =
      ⟨(writableSigners
            [(1, ⟨true, true, false⟩), (2, ⟨true, false, false⟩),
             (3, ⟨false, true, false⟩), (4, ⟨false, false, false⟩)]).length +
          (readonlySigners
            [(1, ⟨true, true, false⟩), (2, ⟨true, false, false⟩),
             (3, ⟨false, true, false⟩), (4, ⟨false, false, false⟩)]).length,
        (readonlySigners
          [(1, ⟨true, true, false⟩), (2, ⟨true, false, false⟩),
           (3, ⟨false, true, false⟩), (4, ⟨false, false, false⟩)]).length,
        (readonlyNonSigners
          [(1, ⟨true, true, false⟩), (2, ⟨true, false, false⟩),
           (3, ⟨false, true, false⟩), (4, ⟨false, false, false⟩)]).length⟩ :=
  ⟨(claimC6_bucket_concatenation
      [(1, ⟨true, true, false⟩), (2, ⟨true, false, false⟩),
       (3, ⟨false, true, false⟩), (4, ⟨false, false, false⟩)]).1,
   (claimC6_bucket_concatenation
      [(1, ⟨true, true, false⟩), (2, ⟨true, false, false⟩),
       (3, ⟨false, true, false⟩), (4, ⟨false, false, false⟩)]).2
     (by decide) (by decide) (by decide)⟩

/-- Claim C7: the claim states compilation is byte-for-byte deterministic
across runs, but `GetMessageComponents` ranges over a Go map, whose
iteration order Go deliberately does not fix: the same key-meta map
enumerated in two different orders (a permutation) yields two different
static account-key lists, so the compiled message is not canonical. -/
theorem claimC7_iteration_order_dependence :
    ([(5, KeyMeta.mk false false false), (6, KeyMeta.mk false false false)]).Perm
      [(6, KeyMeta.mk false false false), (5, KeyMeta.mk false false false)] ∧
    (getMessageComponents
        [(5, KeyMeta.mk false false false), (6, KeyMeta.mk false false false)]).2 ≠
      (getMessageComponents
        [(6, KeyMeta.mk false false false), (5, KeyMeta.mk false false false)]).2 := by
  decide

/-- Claim C8: decoding any strict prefix of a valid encoded message returns
an error (the decoder is a total function, so it cannot panic or read out
of bounds), and a successful decode happens only on inputs that contain the
full encoding of the returned message as a prefix. -/
theorem claimC8_truncated_decode_fails :
    (∀ (m : TxMessage) (bs t : List Nat), m.FitsPrefixes → bs ++ t = encodeTM m →
      t ≠ [] → decodeTM bs = none) ∧
    (∀ (bs : List Nat) (m : TxMessage) (rest : List Nat), AllBytes bs →
      decodeTM bs = some (m, rest) → bs = encodeTM m ++ rest) := by
  constructor
  · intro m bs t hfit heq hne
    cases hd : decodeTM bs with
    | none => rfl
    | some pr =>
      obtain ⟨m', r'⟩ := pr
      have hmono := decodeTM_mono (t := t) hd
      rw [heq] at hmono
      have hrt := decodeTM_encodeTM m hfit []
      rw [List.append_nil] at hrt
      rw [hrt] at hmono
      have hpair : m = m' ∧ ([] : List Nat) = r' ++ t := by
        have := (Option.some.injEq _ _).mp hmono
        exact ⟨congrArg Prod.fst this, congrArg Prod.snd this⟩
      exact ((hne (List.append_eq_nil.mp hpair.2.symm).2)).elim
  · intro bs m rest hb hd
    exact (decodeTM_exact hb hd).1

/-- Claim C8 witness: dropping the last byte of the six-byte encoding of
the empty message makes decoding fail, and a successful decode on the full
encoding consumes exactly that encoding. -/
theorem claimC8_truncated_decode_fails_witness :
    decodeTM [0, 0, 0, 0, 0] = none ∧
    ([0, 0, 0, 0, 0, 0] : List Nat) = encodeTM ⟨0, 0, 0, [], [], []⟩ ++ [] :=
  ⟨claimC8_truncated_decode_fails.1 ⟨0, 0, 0, [], [], []⟩ [0, 0, 0, 0, 0] [0]
     (by decide) (by decide) (by decide),
   claimC8_truncated_decode_fails.2 [0, 0, 0, 0, 0, 0] ⟨0, 0, 0, [], [], []⟩ []
     (by decide) (by decide)⟩

/-- Claim C9: `uint64ToLEBytes` is the exact little-endian byte
decomposition (it equals the base-256 digit expansion on 8 bytes and
recomposes to the input for every value below `2^64`), and the transfer of
exactly 1000000000 raw units compiles to the payload
`[2,0,0,0] ++ littleEndian(1000000000)`. -/
theorem claimC9_le_bytes :
    (∀ v : Nat, uint64ToLEBytes v = natToLEBytes 8 v) ∧
    (∀ v : Nat, v < 2 ^ 64 → leBytesToNat (uint64ToLEBytes v) = v) ∧
    transferInstructionData 1000000000 =
      [2, 0, 0, 0] ++ [0, 202, 154, 59, 0, 0, 0, 0] := by
  refine ⟨uint64ToLEBytes_eq_digits, ?_, by decide⟩
  intro v hv
  rw [uint64ToLEBytes_eq_digits]
  refine leBytesToNat_natToLEBytes 8 v ?_
  have h8 : (256 : Nat) ^ 8 = 2 ^ 64 := by norm_num
  rw [h8]; exact hv

/-- Claim C9 witness: the recomposition law applied at 1000000000. -/
theorem claimC9_le_bytes_witness :
    leBytesToNat (uint64ToLEBytes 1000000000) = 1000000000 :=
  claimC9_le_bytes.2.1 1000000000 (by norm_num)

/-- Claim C10: `VoteOnProposal` treats an empty action as approve (the
built and submitted instruction is the approve instruction), and any action
outside the three verbs yields an invalid-action error with an empty
network-effect trace: no account fetch or submission happens. -/
theorem claimC10_action_validation :
    (∀ (ms ti v : Nat) (memo : String) (p : ProposalRec),
      voteOnProposal ⟨ms, ti, v, memo, ""⟩ true (some p) =
        (.ok (VoteIx.approveIx (if memo = "" then none else some memo) ms v
            (getProposalPDA ms ti)),
         [.fetchAccount ms, .fetchAccount (getProposalPDA ms ti), .getLatestBlockhash,
          .sendTransaction (VoteIx.approveIx (if memo = "" then none else some memo)
            ms v (getProposalPDA ms ti))])) ∧
    (∀ (ms ti v : Nat) (memo a : String) (msPresent : Bool) (prop : Option ProposalRec),
      a ≠ "" → a ≠ "approve" → a ≠ "reject" → a ≠ "cancel" →
      voteOnProposal ⟨ms, ti, v, memo, a⟩ msPresent prop =
        (.error (.invalidAction a), [])) := by
  constructor
  · intro ms ti v memo p
    rfl
  · intro ms ti v memo a msPresent prop h0 h1 h2 h3
    simp [voteOnProposal, h0, h1, h2, h3]

/-- Claim C10 witness: the validation theorem applied at an empty action
and at the invalid action string. -/
theorem claimC10_action_validation_witness :
    voteOnProposal ⟨1, 2, 3, "", ""⟩ true (some ⟨.active 0, [], [], []⟩) =
      (.ok (VoteIx.approveIx none 1 3 (getProposalPDA 1 2)),
       [.fetchAccount 1, .fetchAccount (getProposalPDA 1 2), .getLatestBlockhash,
        .sendTransaction (VoteIx.approveIx none 1 3 (getProposalPDA 1 2))]) ∧
    voteOnProposal ⟨1, 2, 3, "", "foo"⟩ true (some ⟨.active 0, [], [], []⟩) =
      (.error (.invalidAction "foo"), []) :=
  ⟨by simpa using claimC10_action_validation.1 1 2 3 "" ⟨.active 0, [], [], []⟩,
   claimC10_action_validation.2 1 2 3 "" "foo" true (some ⟨.active 0, [], [], []⟩)
     (by decide) (by decide) (by decide) (by decide)⟩

end SquadsGo
